import Mathlib

/-!
Alnair device plugin: allocation core.

A shallow embedding of `alnair-device-plugin/pkg/devicepluginserver/server.go`
(and the two path constants of `pkg/vgpuserver/server.go`), followed by theorems
about the identifier scheme, the preferred-allocation search, the memory-class
`Allocate` handler, the slice enumeration and one pass of the workspace recycler.

Conventions of the embedding.

* A Go `string` is a Lean `String`.  Device identifiers reach the plugin through
  proto3 `string` fields and from NVML, so they are valid UTF-8; on valid UTF-8 the
  byte-wise order used by Go coincides with the code-point order used here.
* Go `int32` / `int` / `uint` values are integers together with explicit wrap-around
  functions (`wrapInt32`, `wrapInt64`, `wrapUint64`); `int` and `uint` are 64 bits wide,
  the only platform NVML supports.
* A Go run-time panic is an `Except.error` carrying a `Fault`.
* A Go `[]string` whose capacity can be observed (by a slice expression) is a
  `StringSlice`: the visible elements plus the spare slots of its backing array.
-/

namespace Alnair

/-! ## Go run-time model -/

/-- Run-time panics of the embedded code.  `outOfFuel` is not a Go panic: it marks
exhaustion of the iteration bound that the embedding gives to the outer loop of
`getPreferredDeviceIDs`. -/
inductive Fault where
  | indexOutOfRange
  | sliceBoundsOutOfRange
  | nilDereference
  | explicitPanic
  | outOfFuel
  deriving DecidableEq, Repr

/-- Two's-complement wrap-around of an integer to `int32`: the identity inside
`[-2^31, 2^31)`, reduction modulo `2^32` outside. -/
def wrapInt32 (z : Int) : Int :=
  if 2147483648 ≤ z ∨ z < -2147483648 then (z + 2147483648) % 4294967296 - 2147483648 else z

/-- Two's-complement wrap-around of an integer to `int64` (Go `int`). -/
def wrapInt64 (z : Int) : Int :=
  if 9223372036854775808 ≤ z ∨ z < -9223372036854775808 then
    (z + 9223372036854775808) % 18446744073709551616 - 9223372036854775808
  else z

/-- Conversion of an integer to `uint64` (Go `uint`). -/
def wrapUint64 (z : Int) : Nat :=
  if z < 0 ∨ 18446744073709551616 ≤ z then (z % 18446744073709551616).toNat else z.toNat

/-- Go index expression `xs[i]`. -/
def index {α : Type} (xs : List α) (i : Int) : Except Fault α :=
  if 0 ≤ i then
    match xs[i.toNat]? with
    | some x => .ok x
    | none => .error .indexOutOfRange
  else .error .indexOutOfRange

/-- Go slice expression `s[lo:hi]` on a slice whose backing array (up to its capacity)
is `backing`. -/
def sliceRange {α : Type} (backing : List α) (lo hi : Int) : Except Fault (List α) :=
  if 0 ≤ lo ∧ lo ≤ hi ∧ hi ≤ backing.length then
    .ok ((backing.drop lo.toNat).take (hi - lo).toNat)
  else .error .sliceBoundsOutOfRange

/-- Go `a < b` on strings, on the character lists. -/
def stringLess : List Char → List Char → Bool
  | _, [] => false
  | [], _ :: _ => true
  | a :: as, b :: bs =>
    if a < b then true
    else if b < a then false
    else stringLess as bs

/-- The order `a <= b` that `sort.Strings` sorts by. -/
def strLE (a b : String) : Prop := stringLess b.data a.data = false

instance strLE.decidable : DecidableRel strLE := fun a b =>
  inferInstanceAs (Decidable (stringLess b.data a.data = false))

/-- Go `sort.Strings`: the result is the increasing rearrangement of the input, which is
unique because equal strings are indistinguishable. -/
def sortStrings (xs : List String) : List String :=
  List.insertionSort strLE xs

/-- Splits at the first occurrence of `sep`: the text before it and the text after it. -/
def cut (sep : Char) : List Char → Option (List Char × List Char)
  | [] => none
  | c :: cs =>
    if c = sep then some ([], cs)
    else match cut sep cs with
      | none => none
      | some (a, b) => some (c :: a, b)

/-- Go `strings.SplitN` on character lists, for a one-character separator and `n >= 0`:
at most `n` pieces, the last one being the unsplit remainder. -/
def splitNChars (sep : Char) : Nat → List Char → List (List Char)
  | 0, _ => []
  | 1, s => [s]
  | n + 2, s =>
    match cut sep s with
    | none => [s]
    | some (a, b) => a :: splitNChars sep (n + 1) b

/-- Go `strings.SplitN(s, sep, n)` for a one-character separator and `n >= 0`. -/
def SplitN (s : String) (sep : Char) (n : Nat) : List String :=
  (splitNChars sep n s.data).map String.mk

/-! ## Identifier decoding, `getRealDeviceIDs`, `getPreferredDeviceIDs` -/

/-- The expression `strings.SplitN(sid, "_", 2)[0]` that `getRealDeviceIDs` and
`getPreferredDeviceIDs` use to decode the physical owner of a virtual identifier. -/
def physicalOf (sid : String) : Except Fault String :=
  index (SplitN sid '_' 2) 0

/-- `getRealDeviceIDs`: sorts the identifiers, then appends the owner of each one unless it
equals the last owner appended. -/
def getRealDeviceIDs (syntheticIDs : List String) : Except Fault (List String) :=
  (sortStrings syntheticIDs).foldlM
    (fun ret sid => do
      let id ← physicalOf sid
      if ret.length = 0 ∨ some id ≠ ret.getLast? then pure (ret ++ [id]) else pure ret)
    []

/-- A Go `[]string`: `elems` are the `len` visible elements, `spare` the slots of the
backing array between `len` and `cap`. -/
structure StringSlice where
  elems : List String
  spare : List String

/-- Inner loop of `getPreferredDeviceIDs`, `for i := startIdx; i < startIdx+allocationSize; i++`,
with `n` iterations left and loop variable `i`: `some i` when the loop breaks at `i`
(the owner differs from `firstId`), `none` when it runs to completion. -/
def scanWindow (ids : List String) (firstId : String) : Nat → Int → Except Fault (Option Int)
  | 0, _ => .ok none
  | n + 1, i => do
    let sid ← index ids i
    let id ← physicalOf sid
    if id ≠ firstId then pure (some i)
    else scanWindow ids firstId n (wrapInt32 (i + 1))

/-- Outer loop of `getPreferredDeviceIDs`,
`for notFound && (startIdx+allocationSize <= int32(len(availableDeviceIDs)))`, entered with
`notFound = true`; returns the final `(startIdx, notFound)`.  The first argument bounds the
number of iterations. -/
def searchLoop (ids : List String) (allocationSize : Int) : Nat → Int → Except Fault (Int × Bool)
  | 0, _ => .error .outOfFuel
  | fuel + 1, startIdx =>
    if wrapInt32 (startIdx + allocationSize) ≤ wrapInt32 ids.length then do
      let sid ← index ids startIdx
      let firstId ← physicalOf sid
      let hit ← scanWindow ids firstId
        (wrapInt32 (startIdx + allocationSize) - startIdx).toNat startIdx
      match hit with
      | some i => searchLoop ids allocationSize fuel i
      | none => pure (startIdx, false)
    else pure (startIdx, true)

/-- `getPreferredDeviceIDs`: sorts the available identifiers in place, searches a window of
`allocationSize` entries with one owner, falls back to index 0, and returns
`availableDeviceIDs[startIdx : startIdx+allocationSize]`. -/
def getPreferredDeviceIDs (availableDeviceIDs : StringSlice) (allocationSize : Int) :
    Except Fault (List String) :=
  match searchLoop (sortStrings availableDeviceIDs.elems) allocationSize
      ((sortStrings availableDeviceIDs.elems).length + 1) 0 with
  | .error e => .error e
  | .ok (found, notFound) =>
    sliceRange (sortStrings availableDeviceIDs.elems ++ availableDeviceIDs.spare)
      (if notFound then 0 else found)
      (wrapInt32 ((if notFound then 0 else found) + allocationSize))

/-! ## Slice enumeration -/

def gpuMemoryChunkSize : Int := 1073741824

/-- Fields of `nvml.Device` that the plugin reads: `Memory` is a `*uint64` (MiB),
`CPUAffinity` a `*uint`; `none` is the nil pointer. -/
structure Device where
  UUID : String
  Memory : Option Nat
  CPUAffinity : Option Nat

/-- `pluginapi.Device`; `Topology` lists the NUMA node IDs when present. -/
structure PluginDevice where
  ID : String
  Health : String
  Topology : Option (List Int)
  deriving DecidableEq

/-- `pluginapi.Healthy`. -/
def Healthy : String := "Healthy"

/-- `getPluginApiMemoryDevice`: one virtual device per chunk of `gpuMemoryChunkSize`. -/
def getPluginApiMemoryDevice (d : Device) : Except Fault (List PluginDevice) :=
  let chunkSzInMiB : Int := gpuMemoryChunkSize / 1024 / 1024
  match d.Memory with
  | none => .error .nilDereference
  | some mem =>
    let numChunks : Int :=
      Int.tdiv (wrapInt64 (wrapInt64 (mem : Int) + chunkSzInMiB / 2)) chunkSzInMiB
    .ok ((List.range (wrapUint64 numChunks)).map fun i =>
      { ID := d.UUID ++ "_" ++ toString i
        Health := Healthy
        Topology := d.CPUAffinity.map fun a => [wrapInt64 (a : Int)] })

/-- `getPluginApiComputeDevice`: one hundred virtual devices per physical device. -/
def getPluginApiComputeDevice (d : Device) : List PluginDevice :=
  (List.range 100).map fun i =>
    { ID := d.UUID ++ "_" ++ toString i
      Health := Healthy
      Topology := none }

/-! ## Memory-class `Allocate` -/

def alnairInterposeLibPath : String := "/opt/alnair/libcuinterpose.so"

/-- Constant of package `vgpuserver`. -/
def AlnairCgroupServerSocket : String := "/run/alnair.sock"

/-- Constant of package `vgpuserver`. -/
def AlnairContainerWorkspaceRoot : String := "/var/lib/alnair/workspace"

/-- `pluginapi.Mount`. -/
structure Mount where
  ContainerPath : String
  HostPath : String

/-- `pluginapi.ContainerAllocateResponse`; the Go map `Envs` is an association list. -/
structure ContainerAllocateResponse where
  Envs : List (String × String)
  Mounts : List Mount

/-- What one iteration of the loop of `Allocate` produces: the response appended to
`resp.ContainerResponses` and the two file-system calls it makes (their errors are only
logged). -/
structure ContainerStep where
  cresp : ContainerAllocateResponse
  mkdirAll : String
  limitsFilepath : String
  limits : String

/-- Result of `GPUMemoryDPServer.Allocate`: the per-container steps in request order and the
arguments of the closing `PatchPod` call. -/
structure AllocateTrace where
  steps : List ContainerStep
  patchPodIDs : String
  patchPodCnt : Int

/-- Body of the loop of `GPUMemoryDPServer.Allocate` for one container request.  `pathJoin` is
Go `path.Join`, `alnairID` the value drawn from `utilrand.String(5)`. -/
def allocateStep (pathJoin : List String → String) (alnairID : String)
    (DevicesIDs : List String) : Except Fault ContainerStep := do
  let devIDs ← getRealDeviceIDs DevicesIDs
  let hostWorkspacePath := pathJoin [AlnairContainerWorkspaceRoot, alnairID]
  let limitsFilepath := pathJoin [hostWorkspacePath, "limits"]
  let limits := "vmem:" ++ toString (wrapInt64 ((DevicesIDs.length : Int) * gpuMemoryChunkSize))
  pure
    { cresp :=
        { Envs :=
            [ ("NVIDIA_VISIBLE_DEVICES", String.intercalate "," devIDs),
              ("ALNAIR_ID", alnairID),
              ("ALNAIR_WORKSPACE_PATH", AlnairContainerWorkspaceRoot),
              ("ALNAIR_SOCKET", AlnairCgroupServerSocket),
              ("LD_PRELOAD", alnairInterposeLibPath) ]
          Mounts :=
            [ { ContainerPath := AlnairContainerWorkspaceRoot, HostPath := hostWorkspacePath },
              { ContainerPath := alnairInterposeLibPath, HostPath := alnairInterposeLibPath },
              { ContainerPath := AlnairCgroupServerSocket,
                HostPath := AlnairCgroupServerSocket } ] }
      mkdirAll := hostWorkspacePath
      limitsFilepath := limitsFilepath
      limits := limits }

/-- The loop of `GPUMemoryDPServer.Allocate` over `req.ContainerRequests`; `k` counts the
requests already handled, `randString k` is the identifier drawn for request `k`.
`getRealDeviceIDs` has sorted `creq.DevicesIDs` in place before it is appended to
`totalDeviceIDs`. -/
def allocateLoop (pathJoin : List String → String) (randString : Nat → String) :
    Nat → List (List String) → List ContainerStep → List String → Int →
      Except Fault (List ContainerStep × List String × Int)
  | _, [], steps, totalDeviceIDs, totalDeviceCnt => .ok (steps, totalDeviceIDs, totalDeviceCnt)
  | k, creq :: rest, steps, totalDeviceIDs, totalDeviceCnt =>
    match allocateStep pathJoin (randString k) creq with
    | .error e => .error e
    | .ok step =>
      allocateLoop pathJoin randString (k + 1) rest (steps ++ [step])
        (totalDeviceIDs ++ sortStrings creq) (wrapInt64 (totalDeviceCnt + (creq.length : Int)))

/-- `GPUMemoryDPServer.Allocate`. -/
def Allocate (pathJoin : List String → String) (randString : Nat → String)
    (ContainerRequests : List (List String)) : Except Fault AllocateTrace :=
  match allocateLoop pathJoin randString 0 ContainerRequests [] [] 0 with
  | .error e => .error e
  | .ok (steps, totalDeviceIDs, totalDeviceCnt) =>
    .ok { steps := steps
          patchPodIDs := String.intercalate "," totalDeviceIDs
          patchPodCnt := totalDeviceCnt }

/-! ## Workspace recycler -/

/-- What `os.Stat` followed by `ioutil.ReadFile` finds at `<root>/<name>/containerID`. -/
inductive FileState where
  | notExist
  | unreadable
  | content (data : String)
  deriving DecidableEq

/-- An entry of the workspace root as `ioutil.ReadDir` lists it, with the state of the
`containerID` file below it. -/
structure DirEntry where
  Name : String
  IsDir : Bool
  containerID : FileState

/-- Loop of `containerExists` over the listed container IDs.  The `fmt.Printf` of a
non-matching container evaluates `container.ID[:10]`, which panics on an ID shorter than
ten bytes. -/
def containerScan (containerID : String) : List String → Except Fault Bool
  | [] => .ok false
  | id :: rest =>
    if id = containerID then .ok true
    else if id.utf8ByteSize < 10 then .error .sliceBoundsOutOfRange
    else containerScan containerID rest

/-- `containerExists`; `containers` is what the Docker client lists (`none` when creating the
client or listing fails, on which the function panics). -/
def containerExists (containers : Option (List String)) (containerID : String) :
    Except Fault Bool :=
  match containers with
  | none => .error .explicitPanic
  | some ids => containerScan containerID ids

/-- The `for _, de := range dentries` loop of `alnairWorkspaceRecycle`, from entry number `k`
of the listing on; `removed` collects the entry names handed to `os.RemoveAll`.
`containerExists` asks the Docker client afresh at every call: `containers k` is what the
client lists when entry `k` is handled.  A panic stops the loop and keeps what was removed. -/
def recycleLoop (containers : Nat → Option (List String)) :
    Nat → List DirEntry → List String → List String × Option Fault
  | _, [], removed => (removed, none)
  | k, de :: rest, removed =>
    if !de.IsDir then recycleLoop containers (k + 1) rest removed
    else match de.containerID with
      | .notExist => recycleLoop containers (k + 1) rest removed
      | .unreadable => recycleLoop containers (k + 1) rest removed
      | .content data =>
        match containerExists (containers k) data with
        | .error e => (removed, some e)
        | .ok true => recycleLoop containers (k + 1) rest removed
        | .ok false => recycleLoop containers (k + 1) rest (removed ++ [de.Name])

/-- One iteration of `alnairWorkspaceRecycle` (up to the `sleep` label): `dentries` is the
result of `ioutil.ReadDir` on the workspace root, `none` when it fails. -/
def alnairWorkspaceRecycle (dentries : Option (List DirEntry))
    (containers : Nat → Option (List String)) : List String × Option Fault :=
  match dentries with
  | none => ([], none)
  | some des => recycleLoop containers 0 des []

/-- The workspace root after `os.RemoveAll` has succeeded on the names in `removed`. -/
def afterRemoval (des : List DirEntry) (removed : List String) : List DirEntry :=
  des.filter fun de => decide (de.Name ∉ removed)

/-! ## Notions used by the statements -/

/-- The text of an identifier before its first `_` (the whole text when there is none). -/
def ownerOf (s : String) : String := String.mk (s.data.takeWhile (fun c => c != '_'))

/-- A locality window: `count` consecutive entries of `S` from index `j` whose owners are all
identical. -/
def IsLocalityWindow (S : List String) (count j : Nat) : Prop :=
  j + count ≤ S.length ∧
    ∀ x ∈ (S.drop j).take count, ∀ y ∈ (S.drop j).take count, ownerOf x = ownerOf y

instance IsLocalityWindow.decidable (S : List String) (count j : Nat) :
    Decidable (IsLocalityWindow S count j) :=
  inferInstanceAs (Decidable (j + count ≤ S.length ∧
    ∀ x ∈ (S.drop j).take count, ∀ y ∈ (S.drop j).take count, ownerOf x = ownerOf y))

/-- Index-wise form of `IsLocalityWindow`. -/
def UniformAt (S : List String) (c j : Nat) : Prop :=
  j + c ≤ S.length ∧ ∀ k, k < c → (S[j + k]?).map ownerOf = (S[j]?).map ownerOf

/-- Equal entries are adjacent: an entry that occurs again later occurs right next. -/
def Grouped : List String → Prop
  | [] => True
  | x :: xs => (x ∈ xs → xs.head? = some x) ∧ Grouped xs

/-- Keeps the first occurrence of every entry, in order. -/
def keepFirst : List String → List String
  | [] => []
  | x :: xs => x :: (keepFirst xs).filter (fun y => y != x)

/-- Removal of adjacent repetitions, written by recursion. -/
def dropRepeats : List String → List String
  | [] => []
  | [x] => [x]
  | x :: y :: rest => if x = y then dropRepeats (y :: rest) else x :: dropRepeats (y :: rest)

/-- Entry number `i` of the listing `des` is a directory called `name` that holds a readable
`containerID` file whose recorded id the registry reports absent when the pass asks for it
(`k` is the number of the first entry of `des` in the whole listing). -/
def ReportedAbsentAt (containers : Nat → Option (List String)) (des : List DirEntry)
    (k i : Nat) (name : String) : Prop :=
  ∃ de data, des[i]? = some de ∧ de.Name = name ∧ de.IsDir = true ∧
    de.containerID = .content data ∧ containerExists (containers (k + i)) data = .ok false

/-! ## Lemmas: string order and sorting -/

theorem stringLess_nil_right (a : List Char) : stringLess a [] = false := by
  cases a <;> rfl

theorem stringLess_cons_false (a b : Char) (as bs : List Char) :
    stringLess (b :: bs) (a :: as) = false ↔ a ≤ b ∧ (a < b ∨ stringLess bs as = false) := by
  simp only [stringLess]
  split_ifs with h1 h2
  · simp [not_le.mpr h1]
  · simp [h2, le_of_lt h2]
  · have : a = b := le_antisymm (not_lt.mp h1) (not_lt.mp h2)
    subst this
    simp

theorem stringLess_trans_le : ∀ (a b c : List Char),
    stringLess b a = false → stringLess c b = false → stringLess c a = false
  | [], _, c, _, _ => stringLess_nil_right c
  | _ :: _, [], _, h, _ => by simp [stringLess] at h
  | _ :: _, _ :: _, [], _, h => by simp [stringLess] at h
  | x :: as, y :: bs, z :: cs, h1, h2 => by
    rw [stringLess_cons_false] at h1 h2 ⊢
    obtain ⟨hxy, h1⟩ := h1
    obtain ⟨hyz, h2⟩ := h2
    refine ⟨le_trans hxy hyz, ?_⟩
    rcases h1 with h1 | h1
    · exact Or.inl (lt_of_lt_of_le h1 hyz)
    · rcases h2 with h2 | h2
      · exact Or.inl (lt_of_le_of_lt hxy h2)
      · exact Or.inr (stringLess_trans_le as bs cs h1 h2)

theorem stringLess_total : ∀ (a b : List Char), stringLess b a = false ∨ stringLess a b = false
  | [], b => Or.inl (stringLess_nil_right b)
  | _ :: _, [] => Or.inr (stringLess_nil_right _)
  | x :: as, y :: bs => by
    rw [stringLess_cons_false, stringLess_cons_false]
    rcases lt_trichotomy x y with h | h | h
    · exact Or.inl ⟨le_of_lt h, Or.inl h⟩
    · subst h
      rcases stringLess_total as bs with h | h
      · exact Or.inl ⟨le_rfl, Or.inr h⟩
      · exact Or.inr ⟨le_rfl, Or.inr h⟩
    · exact Or.inr ⟨le_of_lt h, Or.inl h⟩

/-- Between two strings that start with `w`, every string in lexicographic order starts with `w`. -/
theorem stringLess_sandwich : ∀ (w a c b : List Char),
    stringLess b (w ++ a) = false → stringLess (w ++ c) b = false → ∃ r, b = w ++ r
  | [], _, _, b, _, _ => ⟨b, rfl⟩
  | x :: w, a, c, [], h, _ => by simp [stringLess] at h
  | x :: w, a, c, y :: bs, h1, h2 => by
    simp only [List.cons_append] at h1 h2
    rw [stringLess_cons_false] at h1 h2
    have hxy : x = y := le_antisymm h1.1 h2.1
    subst hxy
    have t1 : stringLess bs (w ++ a) = false := h1.2.resolve_left (lt_irrefl _)
    have t2 : stringLess (w ++ c) bs = false := h2.2.resolve_left (lt_irrefl _)
    obtain ⟨r, hr⟩ := stringLess_sandwich w a c bs t1 t2
    exact ⟨r, by simp [hr]⟩

theorem sortStrings_sorted (xs : List String) : List.Sorted strLE (sortStrings xs) :=
  @List.sorted_insertionSort String strLE _
    ⟨fun a b => stringLess_total a.data b.data⟩
    ⟨fun a b c => stringLess_trans_le a.data b.data c.data⟩ xs

theorem sortStrings_perm (xs : List String) : (sortStrings xs).Perm xs :=
  List.perm_insertionSort _ xs

theorem sortStrings_length (xs : List String) : (sortStrings xs).length = xs.length :=
  (sortStrings_perm xs).length_eq

/-! ## Lemmas: decoding the physical owner -/

theorem cut_none {sep : Char} : ∀ {cs : List Char}, cut sep cs = none →
    cs.takeWhile (fun c => c != sep) = cs
  | [], _ => rfl
  | c :: cs, h => by
    unfold cut at h
    split at h
    · simp at h
    · rename_i hne
      have hb : (c != sep) = true := by simpa using hne
      cases hc : cut sep cs with
      | none => simp [List.takeWhile_cons, hb, cut_none hc]
      | some p => simp [hc] at h

theorem cut_some {sep : Char} : ∀ {cs a b : List Char}, cut sep cs = some (a, b) →
    a = cs.takeWhile (fun c => c != sep)
  | [], a, b, h => by simp [cut] at h
  | c :: cs, a, b, h => by
    unfold cut at h
    split at h
    · rename_i heq
      simp at h
      simp [List.takeWhile_cons, heq, h.1]
    · rename_i hne
      have hb : (c != sep) = true := by simpa using hne
      cases hc : cut sep cs with
      | none => simp [hc] at h
      | some p =>
        obtain ⟨a', b'⟩ := p
        simp [hc] at h
        simp [List.takeWhile_cons, hb, ← h.1, cut_some hc]

theorem physicalOf_eq (s : String) : physicalOf s = .ok (ownerOf s) := by
  unfold physicalOf SplitN ownerOf
  cases hc : cut '_' s.data with
  | none => simp [splitNChars, hc, index, cut_none hc]
  | some p =>
    obtain ⟨a, b⟩ := p
    simp [splitNChars, hc, index, cut_some hc]

theorem takeWhile_split (sep : Char) : ∀ (cs : List Char), sep ∈ cs →
    ∃ r, cs = cs.takeWhile (fun c => c != sep) ++ sep :: r
  | [], h => by simp at h
  | c :: cs, h => by
    by_cases hc : c = sep
    · subst hc
      exact ⟨cs, by simp [List.takeWhile_cons]⟩
    · have hb : (c != sep) = true := by simpa using hc
      have hmem : sep ∈ cs := by
        rcases List.mem_cons.mp h with h | h
        · exact absurd h.symm hc
        · exact h
      obtain ⟨r, hr⟩ := takeWhile_split sep cs hmem
      refine ⟨r, ?_⟩
      simp only [List.takeWhile_cons, hb, if_true, List.cons_append]
      rw [← hr]

theorem takeWhile_append_sep (sep : Char) : ∀ (p r : List Char), sep ∉ p →
    (p ++ sep :: r).takeWhile (fun c => c != sep) = p
  | [], r, _ => by simp [List.takeWhile_cons]
  | c :: p, r, h => by
    have hc : c ≠ sep := fun e => h (by simp [e])
    have hb : (c != sep) = true := by simpa using hc
    have hp : sep ∉ p := fun e => h (List.mem_cons_of_mem _ e)
    simp [List.takeWhile_cons, hb, takeWhile_append_sep sep p r hp]

theorem sep_not_mem_takeWhile (sep : Char) (cs : List Char) :
    sep ∉ cs.takeWhile (fun c => c != sep) := by
  intro h
  have := List.mem_takeWhile_imp h
  simp at this

/-- An identifier lying between two identifiers of one physical device belongs to that device. -/
theorem ownerOf_between {a b c : String} (hab : strLE a b) (hbc : strLE b c)
    (ha : '_' ∈ a.data) (hc : '_' ∈ c.data) (hac : ownerOf a = ownerOf c) :
    ownerOf b = ownerOf a := by
  obtain ⟨ra, hra⟩ := takeWhile_split '_' a.data ha
  obtain ⟨rc, hrc⟩ := takeWhile_split '_' c.data hc
  have hpc : c.data.takeWhile (fun c => c != '_') = a.data.takeWhile (fun c => c != '_') := by
    have := congrArg String.data hac
    simpa [ownerOf] using this.symm
  rw [hpc] at hrc
  unfold strLE at hab hbc
  set p := a.data.takeWhile (fun c => c != '_') with hp
  have h1 : stringLess b.data ((p ++ ['_']) ++ ra) = false := by
    rw [hra] at hab; simpa using hab
  have h2 : stringLess ((p ++ ['_']) ++ rc) b.data = false := by
    rw [hrc] at hbc; simpa using hbc
  obtain ⟨r, hr⟩ := stringLess_sandwich (p ++ ['_']) ra rc b.data h1 h2
  have hnp : '_' ∉ p := sep_not_mem_takeWhile '_' a.data
  unfold ownerOf
  congr 1
  rw [hr, ← hp]
  simpa using takeWhile_append_sep '_' p r hnp

theorem grouped_map_ownerOf : ∀ (S : List String), List.Sorted strLE S →
    (∀ x ∈ S, '_' ∈ x.data) → Grouped (S.map ownerOf)
  | [], _, _ => trivial
  | a :: S, hs, hu => by
    have hs' := List.sorted_cons.mp hs
    refine ⟨?_, grouped_map_ownerOf S hs'.2 (fun x hx => hu x (List.mem_cons_of_mem _ hx))⟩
    intro hmem
    obtain ⟨c, hcS, hc⟩ := List.mem_map.mp hmem
    cases S with
    | nil => simp at hcS
    | cons b S' =>
      have hab : strLE a b := hs'.1 b (List.mem_cons_self _ _)
      have hbc : strLE b c := by
        rcases List.mem_cons.mp hcS with h | h
        · subst h; exact (stringLess_total c.data c.data).elim id id
        · exact (List.sorted_cons.mp hs'.2).1 c h
      have := ownerOf_between hab hbc (hu a (List.mem_cons_self _ _))
        (hu c (List.mem_cons_of_mem _ hcS)) hc.symm
      simp [this]

/-! ## Lemmas: the window search of `getPreferredDeviceIDs` -/

theorem wrapInt32_id (z : Int) (h1 : -2147483648 ≤ z) (h2 : z < 2147483648) : wrapInt32 z = z := by
  unfold wrapInt32
  rw [if_neg (by omega)]

theorem index_natCast {α : Type} (xs : List α) (i : Nat) (x : α) (h : xs[i]? = some x) :
    index xs (i : Int) = .ok x := by
  simp [index, h]

theorem scanWindow_none (ids : List String) (f : String) : ∀ (n i : Nat), i + n < 2147483648 →
    (∀ k, k < n → (ids[i + k]?).map ownerOf = some f) →
    scanWindow ids f n (i : Int) = .ok none
  | 0, _, _, _ => rfl
  | n + 1, i, hb, h => by
    have h0 := h 0 (Nat.succ_pos n)
    simp only [Nat.add_zero, Option.map_eq_some'] at h0
    obtain ⟨x, hx, hxf⟩ := h0
    have hw : wrapInt32 ((i : Int) + 1) = (i : Int) + 1 := by
      rw [wrapInt32_id] <;> omega
    have ih := scanWindow_none ids f n (i + 1) (by omega) (fun k hk => by
      have := h (k + 1) (by omega)
      rwa [show i + (k + 1) = i + 1 + k by omega] at this)
    push_cast at ih
    simp [scanWindow, index_natCast ids i x hx, physicalOf_eq, hxf, hw, ih, bind, Except.bind, pure, Except.pure]

theorem scanWindow_some (ids : List String) (f : String) : ∀ (n i k : Nat), k < n →
    i + n < 2147483648 →
    (∀ k', k' < k → (ids[i + k']?).map ownerOf = some f) →
    (∃ y, ids[i + k]? = some y ∧ ownerOf y ≠ f) →
    scanWindow ids f n (i : Int) = .ok (some ((i + k : Nat) : Int))
  | 0, _, _, hk, _, _, _ => by omega
  | n + 1, i, 0, _, _, _, ⟨y, hy, hyf⟩ => by
    simp only [Nat.add_zero] at hy ⊢
    simp [scanWindow, index_natCast ids i y hy, physicalOf_eq, hyf, bind, Except.bind, pure, Except.pure]
  | n + 1, i, k + 1, hk, hb, h, hy => by
    have h0 := h 0 (Nat.succ_pos k)
    simp only [Nat.add_zero, Option.map_eq_some'] at h0
    obtain ⟨x, hx, hxf⟩ := h0
    have hw : wrapInt32 ((i : Int) + 1) = (i : Int) + 1 := by
      rw [wrapInt32_id] <;> omega
    have ih := scanWindow_some ids f n (i + 1) k (by omega) (by omega) (fun k' hk' => by
      have := h (k' + 1) (by omega)
      rwa [show i + (k' + 1) = i + 1 + k' by omega] at this)
      (by rwa [show i + 1 + k = i + (k + 1) by omega])
    rw [show i + 1 + k = i + (k + 1) by omega] at ih
    push_cast at ih
    simp [scanWindow, index_natCast ids i x hx, physicalOf_eq, hxf, hw, ih, bind, Except.bind, pure, Except.pure]

theorem searchLoop_found (ids : List String) (c s fuel : Nat) (x0 : String)
    (hb : ids.length + c < 2147483648) (hle : s + c ≤ ids.length) (hx0 : ids[s]? = some x0)
    (hscan : scanWindow ids (ownerOf x0) c (s : Int) = .ok none) :
    searchLoop ids (c : Int) (fuel + 1) (s : Int) = .ok ((s : Int), false) := by
  have hw1 : wrapInt32 ((s : Int) + (c : Int)) = (s : Int) + (c : Int) := by
    rw [wrapInt32_id] <;> omega
  have hw2 : wrapInt32 ((ids.length : Nat) : Int) = (ids.length : Int) := by
    rw [wrapInt32_id] <;> omega
  have hcond : (s : Int) + (c : Int) ≤ (ids.length : Int) := by omega
  have hn : ((s : Int) + (c : Int) - (s : Int)).toNat = c := by omega
  rw [searchLoop]
  rw [hw1, hw2, if_pos hcond, index_natCast ids s x0 hx0]
  simp only [bind, Except.bind, physicalOf_eq, hn, hscan, pure, Except.pure]

theorem searchLoop_jump (ids : List String) (c s fuel : Nat) (x0 : String) (i : Int)
    (hb : ids.length + c < 2147483648) (hle : s + c ≤ ids.length) (hx0 : ids[s]? = some x0)
    (hscan : scanWindow ids (ownerOf x0) c (s : Int) = .ok (some i)) :
    searchLoop ids (c : Int) (fuel + 1) (s : Int) = searchLoop ids (c : Int) fuel i := by
  have hw1 : wrapInt32 ((s : Int) + (c : Int)) = (s : Int) + (c : Int) := by
    rw [wrapInt32_id] <;> omega
  have hw2 : wrapInt32 ((ids.length : Nat) : Int) = (ids.length : Int) := by
    rw [wrapInt32_id] <;> omega
  have hcond : (s : Int) + (c : Int) ≤ (ids.length : Int) := by omega
  have hn : ((s : Int) + (c : Int) - (s : Int)).toNat = c := by omega
  rw [searchLoop]
  rw [hw1, hw2, if_pos hcond, index_natCast ids s x0 hx0]
  simp only [bind, Except.bind, physicalOf_eq, hn, hscan]

theorem searchLoop_exit (ids : List String) (c s fuel : Nat)
    (hb : ids.length + c < 2147483648) (hs : s ≤ ids.length) (hle : ¬ s + c ≤ ids.length) :
    searchLoop ids (c : Int) (fuel + 1) (s : Int) = .ok ((s : Int), true) := by
  have hw1 : wrapInt32 ((s : Int) + (c : Int)) = (s : Int) + (c : Int) := by
    rw [wrapInt32_id] <;> omega
  have hw2 : wrapInt32 ((ids.length : Nat) : Int) = (ids.length : Int) := by
    rw [wrapInt32_id] <;> omega
  have hcond : ¬ ((s : Int) + (c : Int) ≤ (ids.length : Int)) := by omega
  rw [searchLoop]
  rw [hw1, hw2, if_neg hcond]
  rfl

theorem searchLoop_spec (ids : List String) (c : Nat) (hc : 1 ≤ c)
    (hb : ids.length + c < 2147483648) :
    ∀ (fuel s : Nat), s ≤ ids.length → ids.length < s + fuel → (∀ j, j < s → ¬ UniformAt ids c j) →
      (∃ j : Nat, searchLoop ids (c : Int) fuel (s : Int) = .ok ((j : Int), false) ∧
          UniformAt ids c j ∧ ∀ j', j' < j → ¬ UniformAt ids c j') ∨
      (∃ j : Nat, searchLoop ids (c : Int) fuel (s : Int) = .ok ((j : Int), true) ∧
          ∀ j', ¬ UniformAt ids c j')
  | 0, s, hs, hf, _ => by omega
  | fuel + 1, s, hs, hf, inv => by
    by_cases hle : s + c ≤ ids.length
    · have hslt : s < ids.length := by omega
      obtain ⟨x0, hx0⟩ : ∃ x0, ids[s]? = some x0 := ⟨ids[s], List.getElem?_eq_getElem hslt⟩
      by_cases hall : ∀ k, k < c → (ids[s + k]?).map ownerOf = some (ownerOf x0)
      · left
        refine ⟨s, ?_, ⟨hle, fun k hk => by rw [hall k hk, hx0]; rfl⟩, inv⟩
        exact searchLoop_found ids c s fuel x0 hb hle hx0
          (scanWindow_none ids (ownerOf x0) c s (by omega) hall)
      · have hex : ∃ k, k < c ∧ (ids[s + k]?).map ownerOf ≠ some (ownerOf x0) := by
          by_contra hne
          exact hall (fun k hk => by
            by_contra h'
            exact hne ⟨k, hk, h'⟩)
        classical
        have hk : Nat.find hex < c ∧
            (ids[s + Nat.find hex]?).map ownerOf ≠ some (ownerOf x0) := Nat.find_spec hex
        have hmin : ∀ k', k' < Nat.find hex →
            (ids[s + k']?).map ownerOf = some (ownerOf x0) := by
          intro k' hk'
          by_contra h'
          exact Nat.find_min hex hk' ⟨by omega, h'⟩
        generalize Nat.find hex = k at hk hmin
        have hk0 : k ≠ 0 := by
          intro h0
          have := hk.2
          rw [h0, Nat.add_zero, hx0] at this
          exact this rfl
        have hklt : s + k < ids.length := by omega
        obtain ⟨y, hy⟩ : ∃ y, ids[s + k]? = some y := ⟨ids[s + k], List.getElem?_eq_getElem hklt⟩
        have hyf : ownerOf y ≠ ownerOf x0 := by
          intro h'
          apply hk.2
          rw [hy]; simp [h']
        have hscan := scanWindow_some ids (ownerOf x0) c s k hk.1 (by omega) hmin ⟨y, hy, hyf⟩
        have inv' : ∀ j, j < s + k → ¬ UniformAt ids c j := by
          intro j hj hu
          by_cases hjs : j < s
          · exact inv j hjs hu
          · have h1 := hu.2 (s + k - j) (by omega)
            rw [show j + (s + k - j) = s + k by omega] at h1
            have h2 := hmin (j - s) (by omega)
            rw [show s + (j - s) = j by omega] at h2
            rw [h2] at h1
            exact hk.2 h1
        have ih := searchLoop_spec ids c hc hb fuel (s + k) (by omega) (by omega) inv'
        rw [searchLoop_jump ids c s fuel x0 _ hb hle hx0 hscan]
        exact ih
    · right
      refine ⟨s, searchLoop_exit ids c s fuel hb hs hle, ?_⟩
      intro j hu
      by_cases hjs : j < s
      · exact inv j hjs hu
      · have := hu.1
        omega

theorem mem_window_iff (S : List String) (c j : Nat) (x : String) :
    x ∈ (S.drop j).take c ↔ ∃ k, k < c ∧ S[j + k]? = some x := by
  rw [List.mem_iff_getElem?]
  constructor
  · rintro ⟨k, hk⟩
    by_cases hkc : k < c
    · exact ⟨k, hkc, by simpa [List.getElem?_take, hkc] using hk⟩
    · simp [List.getElem?_take, hkc] at hk
  · rintro ⟨k, hkc, hk⟩
    exact ⟨k, by simpa [List.getElem?_take, hkc] using hk⟩

theorem isLocalityWindow_iff_uniformAt (S : List String) (c j : Nat) :
    IsLocalityWindow S c j ↔ UniformAt S c j := by
  unfold IsLocalityWindow UniformAt
  constructor
  · rintro ⟨hl, h⟩
    refine ⟨hl, fun k hk => ?_⟩
    have hjk : j + k < S.length := by omega
    have hj : j < S.length := by omega
    have e1 : S[j + k]? = some S[j + k] := List.getElem?_eq_getElem hjk
    have e2 : S[j]? = some S[j] := List.getElem?_eq_getElem hj
    have m1 : S[j + k] ∈ (S.drop j).take c := (mem_window_iff S c j _).mpr ⟨k, hk, e1⟩
    have m2 : S[j] ∈ (S.drop j).take c :=
      (mem_window_iff S c j _).mpr ⟨0, by omega, by simp⟩
    rw [e1, e2]
    simp [h _ m1 _ m2]
  · rintro ⟨hl, h⟩
    refine ⟨hl, fun x hx y hy => ?_⟩
    obtain ⟨k1, hk1, e1⟩ := (mem_window_iff S c j x).mp hx
    obtain ⟨k2, hk2, e2⟩ := (mem_window_iff S c j y).mp hy
    have a1 := h k1 hk1
    have a2 := h k2 hk2
    rw [e1] at a1
    rw [e2, ← a1] at a2
    simpa using a2.symm

theorem sliceRange_window (S spare : List String) (j c : Nat) (h : j + c ≤ S.length)
    (hb : S.length + c < 2147483648) :
    sliceRange (S ++ spare) (j : Int) (wrapInt32 ((j : Int) + (c : Int))) =
      .ok ((S.drop j).take c) := by
  have hw : wrapInt32 ((j : Int) + (c : Int)) = (j : Int) + (c : Int) := by
    rw [wrapInt32_id] <;> omega
  have hcond : 0 ≤ (j : Int) ∧ (j : Int) ≤ (j : Int) + (c : Int) ∧
      (j : Int) + (c : Int) ≤ ((S ++ spare).length : Int) := by
    simp only [List.length_append]
    omega
  have hn : ((j : Int) + (c : Int) - (j : Int)).toNat = c := by omega
  unfold sliceRange
  rw [hw, if_pos hcond]
  simp only [hn, Int.toNat_ofNat]
  congr 1
  rw [List.drop_append_of_le_length (by omega), List.take_append_of_le_length (by simp; omega)]

/-- The search of `getPreferredDeviceIDs`, for `1 <= c <= len` within `int32` range: either it
returns the first window with one owner, or there is none and it returns the first `c`
sorted entries. -/
theorem getPreferredDeviceIDs_cases (available : StringSlice) (c : Nat) (hc : 1 ≤ c)
    (hle : c ≤ available.elems.length) (hb : available.elems.length + c < 2147483648) :
    (∃ j, UniformAt (sortStrings available.elems) c j ∧
        (∀ j', j' < j → ¬ UniformAt (sortStrings available.elems) c j') ∧
        getPreferredDeviceIDs available (c : Int) =
          .ok (((sortStrings available.elems).drop j).take c)) ∨
    ((∀ j, ¬ UniformAt (sortStrings available.elems) c j) ∧
        getPreferredDeviceIDs available (c : Int) =
          .ok ((sortStrings available.elems).take c)) := by
  have hlen := sortStrings_length available.elems
  have hb' : (sortStrings available.elems).length + c < 2147483648 := by omega
  have key := searchLoop_spec (sortStrings available.elems) c hc hb'
    ((sortStrings available.elems).length + 1) 0 (Nat.zero_le _) (by omega)
    (fun j hj => absurd hj (Nat.not_lt_zero j))
  simp only [Nat.cast_zero] at key
  rcases key with ⟨j, hrun, hu, hmin⟩ | ⟨j, hrun, hno⟩
  · left
    refine ⟨j, hu, hmin, ?_⟩
    unfold getPreferredDeviceIDs
    rw [hrun]
    simp only [Bool.false_eq_true, if_false]
    exact sliceRange_window _ _ j c hu.1 hb'
  · right
    refine ⟨hno, ?_⟩
    unfold getPreferredDeviceIDs
    rw [hrun]
    simp only [if_true]
    have := sliceRange_window (sortStrings available.elems) available.spare 0 c (by omega) hb'
    simpa using this

/-! ## Lemmas: owners are grouped in sorted order -/

theorem grouped_run (p : String) : ∀ (L : List String) (c : Nat), Grouped L → 1 ≤ c →
    c ≤ L.count p → ∃ j, j + c ≤ L.length ∧ ∀ k, k < c → L[j + k]? = some p
  | [], c, _, hc, hcount => by simp at hcount; omega
  | x :: xs, c, hg, hc, hcount => by
    by_cases hx : x = p
    · subst hx
      refine ⟨0, ?_, ?_⟩
      · have := List.count_le_length x (x :: xs)
        omega
      · have run : ∀ (M : List String) (n : Nat), Grouped (x :: M) → n ≤ (x :: M).count x →
            ∀ k, k < n → (x :: M)[k]? = some x := by
          intro M
          induction M with
          | nil =>
            intro n _ hn k hk
            simp at hn
            have : k = 0 := by omega
            subst this
            rfl
          | cons y M ih =>
            intro n hgM hn k hk
            cases k with
            | zero => rfl
            | succ k =>
              have hcnt : 1 ≤ (y :: M).count x := by
                simp only [List.count_cons_self] at hn
                omega
              have hmem : x ∈ y :: M := List.count_pos_iff.mp hcnt
              have hy := hgM.1 hmem
              simp only [List.head?_cons, Option.some.injEq] at hy
              subst hy
              have := ih (n - 1) hgM.2 (by
                simp only [List.count_cons_self] at hn ⊢
                omega) k (by omega)
              simpa using this
        intro k hk
        have := run xs c hg hcount k hk
        simpa using this
    · have hcount' : c ≤ xs.count p := by
        rw [List.count_cons_of_ne (Ne.symm hx)] at hcount
        exact hcount
      obtain ⟨j, hj, hrun⟩ := grouped_run p xs c hg.2 hc hcount'
      refine ⟨j + 1, by simp only [List.length_cons]; omega, fun k hk => ?_⟩
      have := hrun k hk
      rw [show j + 1 + k = (j + k) + 1 by omega]
      simpa using this

theorem count_map_ownerOf (S : List String) (p : String) :
    (S.map ownerOf).count p = (S.filter (fun x => ownerOf x = p)).length := by
  induction S with
  | nil => rfl
  | cons a S ih =>
    by_cases h : ownerOf a = p
    · simp [List.filter_cons, h, ih]
    · have h' : ¬ (p = ownerOf a) := fun e => h e.symm
      simp [List.filter_cons, h, List.count_cons, ih, h']

/-- In a sorted list of identifiers that all contain `_`, a device that owns at least `c`
entries yields a window of `c` consecutive entries with one owner. -/
theorem exists_uniformAt (ids : List String) (c : Nat) (p : String)
    (hu : ∀ x ∈ ids, '_' ∈ x.data) (hc : 1 ≤ c)
    (hp : c ≤ (ids.filter (fun x => ownerOf x = p)).length) :
    ∃ j, UniformAt (sortStrings ids) c j := by
  have hperm := sortStrings_perm ids
  have hg : Grouped ((sortStrings ids).map ownerOf) :=
    grouped_map_ownerOf _ (sortStrings_sorted ids) (fun x hx => hu x (hperm.subset hx))
  have hcount : c ≤ ((sortStrings ids).map ownerOf).count p := by
    rw [count_map_ownerOf]
    rw [(hperm.filter _).length_eq]
    exact hp
  obtain ⟨j, hj, hrun⟩ := grouped_run p _ c hg hc hcount
  refine ⟨j, by simpa using hj, fun k hk => ?_⟩
  have e1 := hrun k hk
  have e2 := hrun 0 (by omega)
  simp only [List.getElem?_map, Nat.add_zero] at e1 e2
  rw [e1, e2]

/-! ## Lemmas: the iteration bound of the outer loop -/

theorem index_cases {α : Type} (xs : List α) (i : Int) :
    (∃ x, index xs i = .ok x ∧ 0 ≤ i ∧ i < xs.length) ∨ index xs i = .error .indexOutOfRange := by
  unfold index
  by_cases h : 0 ≤ i
  · rw [if_pos h]
    cases hx : xs[i.toNat]? with
    | none => right; rfl
    | some x =>
      left
      refine ⟨x, rfl, h, ?_⟩
      have := (List.getElem?_eq_some_iff.mp hx).1
      omega
  · rw [if_neg h]
    right; rfl

theorem scanWindow_outcome (ids : List String) (f : String) (hlen : ids.length < 2147483648) :
    ∀ (n : Nat) (i0 : Int),
      scanWindow ids f n i0 = .error .indexOutOfRange ∨ scanWindow ids f n i0 = .ok none ∨
        ∃ i, scanWindow ids f n i0 = .ok (some i) ∧ i0 ≤ i ∧ i < ids.length ∧
          (i = i0 → ∃ x, index ids i0 = .ok x ∧ ownerOf x ≠ f)
  | 0, _ => Or.inr (Or.inl rfl)
  | n + 1, i0 => by
    rw [scanWindow]
    rcases index_cases ids i0 with ⟨x, hx, h0, hlt⟩ | herr
    · rw [hx]
      simp only [bind, Except.bind, physicalOf_eq]
      by_cases hne : ownerOf x ≠ f
      · rw [if_pos hne]
        exact Or.inr (Or.inr ⟨i0, rfl, le_refl _, hlt, fun _ => ⟨x, rfl, hne⟩⟩)
      · rw [if_neg hne]
        have hw : wrapInt32 (i0 + 1) = i0 + 1 := by
          rw [wrapInt32_id] <;> omega
        rw [hw]
        rcases scanWindow_outcome ids f hlen n (i0 + 1) with h | h | ⟨i, h, hle, hlt', _⟩
        · exact Or.inl h
        · exact Or.inr (Or.inl h)
        · exact Or.inr (Or.inr ⟨i, h, by omega, hlt', fun e => by omega⟩)
    · rw [herr]
      exact Or.inl rfl

/-- The iteration bound of the embedding is never the reason for an outcome: with
`len + 1` iterations allowed, the outer loop of `getPreferredDeviceIDs` always ends by itself
(or by a Go panic), whatever the requested size. -/
theorem searchLoop_fuel (ids : List String) (allocationSize : Int)
    (hlen : ids.length < 2147483648) :
    ∀ (fuel : Nat) (s : Int), 0 ≤ s → s ≤ ids.length → (ids.length : Int) - s < fuel →
      searchLoop ids allocationSize fuel s ≠ .error .outOfFuel
  | 0, s, h0, hs, hf => by
    exfalso
    omega
  | fuel + 1, s, h0, hs, hf => by
    rw [searchLoop]
    split
    · rcases index_cases ids s with ⟨x, hx, _, hlt⟩ | herr
      · rw [hx]
        simp only [bind, Except.bind, physicalOf_eq]
        rcases scanWindow_outcome ids (ownerOf x) hlen
            (wrapInt32 (s + allocationSize) - s).toNat s with h | h | ⟨i, h, hle, hlt', hne⟩
        · rw [h]
          simp
        · rw [h]
          simp [pure, Except.pure]
        · rw [h]
          simp only []
          have hsi : s < i := by
            rcases lt_or_eq_of_le hle with h' | h'
            · exact h'
            · obtain ⟨y, hy, hyf⟩ := hne h'.symm
              rw [hx] at hy
              cases hy
              exact absurd rfl hyf
          exact searchLoop_fuel ids allocationSize hlen fuel i (by omega) (by omega)
            (by push_cast at hf; omega)
      · rw [herr]
        simp [bind, Except.bind]
    · simp [pure, Except.pure]

theorem sliceRange_ne_outOfFuel {α : Type} (backing : List α) (lo hi : Int) :
    sliceRange backing lo hi ≠ .error .outOfFuel := by
  unfold sliceRange
  split <;> simp

theorem getPreferredDeviceIDs_fuel (available : StringSlice) (allocationSize : Int)
    (hlen : available.elems.length < 2147483648) :
    getPreferredDeviceIDs available allocationSize ≠ .error .outOfFuel := by
  have hl := sortStrings_length available.elems
  have key := searchLoop_fuel (sortStrings available.elems) allocationSize (by omega)
    ((sortStrings available.elems).length + 1) 0 (le_refl _) (by omega) (by push_cast; omega)
  unfold getPreferredDeviceIDs
  cases hrun : searchLoop (sortStrings available.elems) allocationSize
      ((sortStrings available.elems).length + 1) 0 with
  | error e =>
    simp only []
    intro h
    rw [Except.error.injEq] at h
    rw [h] at hrun
    exact key hrun
  | ok r =>
    obtain ⟨found, notFound⟩ := r
    simp only []
    exact sliceRange_ne_outOfFuel _ _ _

/-! ## Theorems: `getPreferredDeviceIDs` and identifier decoding -/

theorem ownerOf_of_no_sep (s : String) (h : '_' ∉ s.data) : ownerOf s = s := by
  unfold ownerOf
  have : s.data.takeWhile (fun c => c != '_') = s.data := by
    rw [List.takeWhile_eq_self_iff]
    intro c hc
    have : c ≠ '_' := fun e => h (e ▸ hc)
    simpa using this
  rw [this]

theorem searchLoop_beyond_length (ids : List String) (c fuel : Nat) (hlen : ids.length < c)
    (hc : c < 2147483648) :
    searchLoop ids (c : Int) (fuel + 1) 0 = .ok (0, true) := by
  have hw1 : wrapInt32 ((0 : Int) + (c : Int)) = (c : Int) := by
    rw [wrapInt32_id] <;> omega
  have hw2 : wrapInt32 ((ids.length : Nat) : Int) = (ids.length : Int) := by
    rw [wrapInt32_id] <;> omega
  have hcond : ¬ ((c : Int) ≤ (ids.length : Int)) := by omega
  rw [searchLoop]
  rw [hw1, hw2, if_neg hcond]
  rfl

/-- C2: for `1 <= count <= |available|` (within `int32` range), with `S` the sorted
`available`: if `S` has a window of `count` consecutive entries with identical owners,
`getPreferredDeviceIDs` returns the one with the lowest start index; if `S` has no such
window, it returns the first `count` entries of `S`. -/
theorem getPreferredDeviceIDs_first_window (available : StringSlice) (count : Nat)
    (h1 : 1 ≤ count) (h2 : count ≤ available.elems.length)
    (hb : available.elems.length + count < 2147483648) :
    (∀ j, IsLocalityWindow (sortStrings available.elems) count j →
        (∀ j', j' < j → ¬ IsLocalityWindow (sortStrings available.elems) count j') →
        getPreferredDeviceIDs available (count : Int) =
          .ok (((sortStrings available.elems).drop j).take count)) ∧
    ((∀ j, ¬ IsLocalityWindow (sortStrings available.elems) count j) →
        getPreferredDeviceIDs available (count : Int) =
          .ok ((sortStrings available.elems).take count)) := by
  simp only [isLocalityWindow_iff_uniformAt]
  rcases getPreferredDeviceIDs_cases available count h1 h2 hb with
    ⟨j0, hu0, hmin0, hres⟩ | ⟨hno, hres⟩
  · refine ⟨fun j hu hmin => ?_, fun hno => absurd hu0 (hno j0)⟩
    have hj : j = j0 := by
      rcases Nat.lt_trichotomy j j0 with h | h | h
      · exact absurd hu (hmin0 j h)
      · exact h
      · exact absurd hu0 (hmin j0 h)
    rw [hj]
    exact hres
  · exact ⟨fun j hu _ => absurd hu (hno j), fun _ => hres⟩

/-- The theorem above on five identifiers of two devices: the lowest window of three is the one of device `B`. -/
theorem getPreferredDeviceIDs_first_window_witness :
    getPreferredDeviceIDs ⟨["B_1", "A_0", "B_0", "A_1", "B_2"], []⟩ ((3 : Nat) : Int) =
      .ok ["B_0", "B_1", "B_2"] :=
  (getPreferredDeviceIDs_first_window ⟨["B_1", "A_0", "B_0", "A_1", "B_2"], []⟩ 3
    (by decide) (by decide) (by decide)).1 2 (by decide) (by decide)

/-- C1: when every available identifier contains `_`, `1 <= count <= |available|` (within
`int32` range) and some physical owner is shared by at least `count` available identifiers,
`getPreferredDeviceIDs` returns `count` identifiers that all have one and the same owner. -/
theorem getPreferredDeviceIDs_same_owner (available : StringSlice) (count : Nat)
    (hu : ∀ x ∈ available.elems, '_' ∈ x.data)
    (h1 : 1 ≤ count) (h2 : count ≤ available.elems.length)
    (hb : available.elems.length + count < 2147483648)
    (hp : ∃ p, count ≤ (available.elems.filter (fun x => ownerOf x = p)).length) :
    ∃ r p, getPreferredDeviceIDs available (count : Int) = .ok r ∧ r.length = count ∧
      ∀ x ∈ r, ownerOf x = p := by
  obtain ⟨p, hp⟩ := hp
  obtain ⟨j1, hj1⟩ := exists_uniformAt available.elems count p hu h1 hp
  rcases getPreferredDeviceIDs_cases available count h1 h2 hb with
    ⟨j0, hu0, _, hres⟩ | ⟨hno, _⟩
  · have hw := (isLocalityWindow_iff_uniformAt _ count j0).mpr hu0
    have hj0 : j0 < (sortStrings available.elems).length := by
      have := hu0.1
      omega
    refine ⟨_, ownerOf ((sortStrings available.elems)[j0]), hres, ?_, fun x hx => ?_⟩
    · rw [List.length_take, List.length_drop]
      have := hu0.1
      omega
    · have hm : (sortStrings available.elems)[j0] ∈
          ((sortStrings available.elems).drop j0).take count :=
        (mem_window_iff _ count j0 _).mpr
          ⟨0, by omega, by simp⟩
      exact hw.2 x hx _ hm
  · exact absurd hj1 (hno j1)

/-- The theorem above on the pool of four slices of `A` and four of `B`, with three requested. -/
theorem getPreferredDeviceIDs_same_owner_witness :
    ∃ r p, getPreferredDeviceIDs
        ⟨["A_0", "B_0", "A_1", "B_1", "A_2", "B_2", "A_3", "B_3"], []⟩ ((3 : Nat) : Int) = .ok r ∧
      r.length = 3 ∧ ∀ x ∈ r, ownerOf x = p :=
  getPreferredDeviceIDs_same_owner
    ⟨["A_0", "B_0", "A_1", "B_1", "A_2", "B_2", "A_3", "B_3"], []⟩ 3
    (by decide) (by decide) (by decide) (by decide) ⟨"B", by decide⟩

/-- C3 at the empty list with `count = 0`: the outer loop is entered (`0 + 0 <= 0`) and
`availableDeviceIDs[startIdx]` panics, so no list is returned. -/
theorem getPreferredDeviceIDs_empty_zero :
    getPreferredDeviceIDs ⟨[], []⟩ 0 = .error .indexOutOfRange := by
  rfl

/-- For a non-empty list and `0 <= count <= |available|` (within `int32` range),
`getPreferredDeviceIDs` returns exactly `count` identifiers. -/
theorem getPreferredDeviceIDs_length_of_nonempty (available : StringSlice) (count : Nat)
    (hne : available.elems ≠ []) (h2 : count ≤ available.elems.length)
    (hb : available.elems.length + count < 2147483648) :
    ∃ r, getPreferredDeviceIDs available (count : Int) = .ok r ∧ r.length = count := by
  have hlen := sortStrings_length available.elems
  rcases Nat.eq_zero_or_pos count with h0 | hpos
  · subst h0
    have hpos : 0 < (sortStrings available.elems).length := by
      rw [hlen]
      exact List.length_pos.mpr hne
    obtain ⟨x0, hx0⟩ : ∃ x0, (sortStrings available.elems)[0]? = some x0 :=
      ⟨_, List.getElem?_eq_getElem hpos⟩
    have hrun := searchLoop_found (sortStrings available.elems) 0
      0 (sortStrings available.elems).length x0 (by omega) (by omega) hx0 rfl
    simp only [Nat.cast_zero] at hrun
    refine ⟨[], ?_, rfl⟩
    unfold getPreferredDeviceIDs
    simp only [Nat.cast_zero]
    rw [hrun]
    simp only [Bool.false_eq_true, if_false]
    have := sliceRange_window (sortStrings available.elems) available.spare 0 0
      (by omega) (by omega)
    simpa using this
  · rcases getPreferredDeviceIDs_cases available count hpos h2 hb with
      ⟨j0, hu0, _, hres⟩ | ⟨_, hres⟩
    · refine ⟨_, hres, ?_⟩
      rw [List.length_take, List.length_drop]
      have := hu0.1
      omega
    · refine ⟨_, hres, ?_⟩
      rw [List.length_take]
      omega

/-- C9, as amended: when `count` exceeds the capacity of `available` (in particular when it
exceeds `|available|` and the slice has no spare capacity), `getPreferredDeviceIDs` returns no
list: the slice expression `availableDeviceIDs[0:count]` panics. -/
theorem getPreferredDeviceIDs_beyond_capacity (available : StringSlice) (count : Nat)
    (hcap : available.elems.length + available.spare.length < count)
    (hc : count < 2147483648) :
    getPreferredDeviceIDs available (count : Int) = .error .sliceBoundsOutOfRange := by
  have hlen := sortStrings_length available.elems
  have hrun := searchLoop_beyond_length (sortStrings available.elems) count
    (sortStrings available.elems).length (by omega) hc
  have hw : wrapInt32 ((0 : Int) + (count : Int)) = (count : Int) := by
    rw [wrapInt32_id] <;> omega
  unfold getPreferredDeviceIDs
  rw [hrun]
  simp only [if_true]
  rw [hw]
  unfold sliceRange
  rw [if_neg]
  simp only [List.length_append, not_and, not_le]
  intro _ _
  omega

/-- The theorem above on one available identifier, no spare capacity and two requested. -/
theorem getPreferredDeviceIDs_beyond_capacity_witness :
    getPreferredDeviceIDs ⟨["A_0"], []⟩ ((2 : Nat) : Int) = .error .sliceBoundsOutOfRange :=
  getPreferredDeviceIDs_beyond_capacity ⟨["A_0"], []⟩ 2 (by decide) (by decide)

/-- C9 as stated fails: with `count = 4 > 3 = |available|` and one spare slot in the backing
array, `getPreferredDeviceIDs` returns a list of four entries; without spare capacity the
outcome is a run-time panic of the slice expression. -/
theorem getPreferredDeviceIDs_no_insufficientCapacity :
    getPreferredDeviceIDs ⟨["A_2", "A_0", "A_1"], [""]⟩ 4 = .ok ["A_0", "A_1", "A_2", ""] ∧
      getPreferredDeviceIDs ⟨["A_2", "A_0", "A_1"], []⟩ 4 = .error .sliceBoundsOutOfRange :=
  ⟨rfl, rfl⟩

/-- C10, as amended: for an identifier without `_`, the decoding
`strings.SplitN(sid, "_", 2)[0]` succeeds and yields the whole identifier. -/
theorem physicalOf_of_no_sep (sid : String) (h : '_' ∉ sid.data) :
    physicalOf sid = .ok sid := by
  rw [physicalOf_eq, ownerOf_of_no_sep sid h]

/-- The theorem above on the identifier `GPU-1`. -/
theorem physicalOf_of_no_sep_witness : physicalOf "GPU-1" = .ok "GPU-1" :=
  physicalOf_of_no_sep "GPU-1" (by decide)

/-- C10 as stated fails: `GPU0` contains no `_`, yet decoding it does not fail. -/
theorem physicalOf_not_malformed :
    '_' ∉ "GPU0".data ∧ physicalOf "GPU0" = .ok "GPU0" :=
  ⟨by decide, rfl⟩

/-! ## Theorems: `getRealDeviceIDs` -/

/-- The pure step of the loop of `getRealDeviceIDs`. -/
theorem realStep_eq (ret : List String) (sid : String) :
    (do
      let id ← physicalOf sid
      if ret.length = 0 ∨ some id ≠ ret.getLast? then pure (ret ++ [id]) else pure ret :
        Except Fault (List String)) =
      .ok (if ret.length = 0 ∨ some (ownerOf sid) ≠ ret.getLast? then ret ++ [ownerOf sid]
        else ret) := by
  rw [physicalOf_eq]
  simp only [bind, Except.bind]
  split <;> rfl

theorem foldlM_real (L : List String) : ∀ (acc : List String),
    L.foldlM (fun ret sid => (do
      let id ← physicalOf sid
      if ret.length = 0 ∨ some id ≠ ret.getLast? then pure (ret ++ [id]) else pure ret :
        Except Fault (List String))) acc =
    .ok (L.foldl (fun ret sid =>
      if ret.length = 0 ∨ some (ownerOf sid) ≠ ret.getLast? then ret ++ [ownerOf sid]
        else ret) acc) := by
  induction L with
  | nil => intro acc; rfl
  | cons a L ih =>
    intro acc
    rw [List.foldlM_cons, realStep_eq]
    simp only [bind, Except.bind, List.foldl_cons]
    exact ih _

theorem foldl_real_snoc : ∀ (L : List String) (acc : List String) (a : String),
    L.foldl (fun ret sid =>
      if ret.length = 0 ∨ some (ownerOf sid) ≠ ret.getLast? then ret ++ [ownerOf sid]
        else ret) (acc ++ [a]) =
    acc ++ dropRepeats (a :: L.map ownerOf)
  | [], acc, a => by simp [dropRepeats]
  | b :: L, acc, a => by
    rw [List.foldl_cons]
    by_cases hab : a = ownerOf b
    · have hstep : (if (acc ++ [a]).length = 0 ∨ some (ownerOf b) ≠ (acc ++ [a]).getLast? then
          (acc ++ [a]) ++ [ownerOf b] else acc ++ [a]) = acc ++ [a] := by
        rw [if_neg]
        simp [hab]
      rw [hstep, foldl_real_snoc L acc a]
      simp [dropRepeats, hab]
    · have hstep : (if (acc ++ [a]).length = 0 ∨ some (ownerOf b) ≠ (acc ++ [a]).getLast? then
          (acc ++ [a]) ++ [ownerOf b] else acc ++ [a]) = (acc ++ [a]) ++ [ownerOf b] := by
        rw [if_pos]
        right
        simp only [List.getLast?_append, List.getLast?_singleton, Option.or_some, ne_eq,
          Option.some.injEq]
        exact fun e => hab e.symm
      rw [hstep, foldl_real_snoc L (acc ++ [a]) (ownerOf b)]
      simp [dropRepeats, hab]

/-- `getRealDeviceIDs` never panics: it returns the owners of the sorted identifiers with
adjacent repetitions removed. -/
theorem getRealDeviceIDs_eq (ids : List String) :
    getRealDeviceIDs ids = .ok (dropRepeats ((sortStrings ids).map ownerOf)) := by
  unfold getRealDeviceIDs
  rw [foldlM_real]
  congr 1
  cases h : sortStrings ids with
  | nil => rfl
  | cons a L =>
    rw [List.foldl_cons]
    have := foldl_real_snoc L [] (ownerOf a)
    simpa using this

theorem mem_keepFirst : ∀ (L : List String) (x : String), x ∈ keepFirst L ↔ x ∈ L
  | [], x => by simp [keepFirst]
  | a :: L, x => by
    simp only [keepFirst, List.mem_cons, List.mem_filter, mem_keepFirst L x, bne_iff_ne, ne_eq]
    constructor
    · rintro (h | ⟨h, _⟩)
      · exact Or.inl h
      · exact Or.inr h
    · rintro (h | h)
      · exact Or.inl h
      · by_cases hx : x = a
        · exact Or.inl hx
        · exact Or.inr ⟨h, hx⟩

theorem nodup_keepFirst : ∀ (L : List String), (keepFirst L).Nodup
  | [] => by simp [keepFirst]
  | a :: L => by
    simp only [keepFirst, List.nodup_cons, List.mem_filter, bne_iff_ne, ne_eq, not_true_eq_false,
      and_false, not_false_eq_true, true_and]
    exact (nodup_keepFirst L).filter _

theorem dropRepeats_eq_keepFirst : ∀ (L : List String), Grouped L → dropRepeats L = keepFirst L
  | [], _ => rfl
  | [x], _ => by simp [dropRepeats, keepFirst]
  | x :: y :: rest, hg => by
    have ih := dropRepeats_eq_keepFirst (y :: rest) hg.2
    by_cases hxy : x = y
    · subst hxy
      simp only [dropRepeats, if_true, ih]
      simp only [keepFirst, List.filter_cons, bne_self_eq_false, Bool.false_eq_true, if_false,
        List.filter_filter, Bool.and_self]
    · have hnot : x ∉ y :: rest := by
        intro hmem
        have := hg.1 hmem
        simp only [List.head?_cons, Option.some.injEq] at this
        exact hxy this.symm
      simp only [dropRepeats, if_neg hxy, ih]
      have hfil : (keepFirst (y :: rest)).filter (fun z => z != x) = keepFirst (y :: rest) := by
        rw [List.filter_eq_self]
        intro z hz
        have hz' := (mem_keepFirst _ z).mp hz
        have : z ≠ x := fun e => hnot (e ▸ hz')
        simpa using this
      conv_rhs => rw [keepFirst, hfil]

/-- C4: for identifiers that all contain `_`, `getRealDeviceIDs` returns the owners of the
sorted identifiers with only the first occurrence of each owner kept; every owner of an input
identifier appears exactly once and nothing else appears. -/
theorem getRealDeviceIDs_first_occurrences (syntheticIDs : List String)
    (hu : ∀ x ∈ syntheticIDs, '_' ∈ x.data) :
    getRealDeviceIDs syntheticIDs = .ok (keepFirst ((sortStrings syntheticIDs).map ownerOf)) ∧
      (keepFirst ((sortStrings syntheticIDs).map ownerOf)).Nodup ∧
      ∀ o, o ∈ keepFirst ((sortStrings syntheticIDs).map ownerOf) ↔
        ∃ x ∈ syntheticIDs, ownerOf x = o := by
  have hperm := sortStrings_perm syntheticIDs
  have hg : Grouped ((sortStrings syntheticIDs).map ownerOf) :=
    grouped_map_ownerOf _ (sortStrings_sorted syntheticIDs)
      (fun x hx => hu x (hperm.subset hx))
  refine ⟨?_, nodup_keepFirst _, fun o => ?_⟩
  · rw [getRealDeviceIDs_eq, dropRepeats_eq_keepFirst _ hg]
  · rw [mem_keepFirst, List.mem_map]
    constructor
    · rintro ⟨x, hx, rfl⟩
      exact ⟨x, hperm.subset hx, rfl⟩
    · rintro ⟨x, hx, rfl⟩
      exact ⟨x, hperm.symm.subset hx, rfl⟩

/-- The theorem above on two slices each of `GPU-0` and `GPU-1`, given out of order. -/
theorem getRealDeviceIDs_first_occurrences_witness :
    getRealDeviceIDs ["GPU-1_1", "GPU-0_3", "GPU-1_0", "GPU-0_12"] = .ok ["GPU-0", "GPU-1"] :=
  (getRealDeviceIDs_first_occurrences ["GPU-1_1", "GPU-0_3", "GPU-1_0", "GPU-0_12"]
    (by decide)).1

/-! ## Theorems: memory-class `Allocate` -/

theorem wrapInt64_id (z : Int) (h1 : -9223372036854775808 ≤ z) (h2 : z < 9223372036854775808) :
    wrapInt64 z = z := by
  unfold wrapInt64
  rw [if_neg (by omega)]

theorem wrapUint64_natCast (n : Nat) (h : n < 18446744073709551616) :
    wrapUint64 (n : Int) = n := by
  unfold wrapUint64
  rw [if_neg (by omega)]
  exact Int.toNat_ofNat n

theorem allocateStep_spec (pathJoin : List String → String) (alnairID : String)
    (DevicesIDs : List String) :
    ∃ step, allocateStep pathJoin alnairID DevicesIDs = .ok step ∧
      step.limits =
        "vmem:" ++ toString (wrapInt64 ((DevicesIDs.length : Int) * gpuMemoryChunkSize)) ∧
      step.cresp.Envs.lookup "NVIDIA_VISIBLE_DEVICES" =
        some (String.intercalate "," (dropRepeats ((sortStrings DevicesIDs).map ownerOf))) := by
  unfold allocateStep
  rw [getRealDeviceIDs_eq]
  exact ⟨_, rfl, rfl, rfl⟩

theorem allocateLoop_spec (pathJoin : List String → String) (randString : Nat → String) :
    ∀ (reqs : List (List String)) (k : Nat) (steps : List ContainerStep) (ids : List String)
      (cnt : Int),
      ∃ steps' ids' cnt',
        allocateLoop pathJoin randString k reqs steps ids cnt = .ok (steps ++ steps', ids', cnt') ∧
        steps'.length = reqs.length ∧
        ∀ i, i < reqs.length → ∃ step creq, steps'[i]? = some step ∧ reqs[i]? = some creq ∧
          allocateStep pathJoin (randString (k + i)) creq = .ok step
  | [], k, steps, ids, cnt => ⟨[], ids, cnt, by simp [allocateLoop], rfl, fun i hi => by
      simp at hi⟩
  | creq :: rest, k, steps, ids, cnt => by
    obtain ⟨step, hstep, _, _⟩ := allocateStep_spec pathJoin (randString k) creq
    obtain ⟨steps', ids', cnt', hrun, hlen, hall⟩ :=
      allocateLoop_spec pathJoin randString rest (k + 1) (steps ++ [step])
        (ids ++ sortStrings creq) (wrapInt64 (cnt + (creq.length : Int)))
    refine ⟨step :: steps', ids', cnt', ?_, by simp [hlen], fun i hi => ?_⟩
    · rw [allocateLoop, hstep]
      simp only []
      rw [hrun]
      simp
    · cases i with
      | zero => exact ⟨step, creq, by simp, by simp, by simpa using hstep⟩
      | succ i =>
        obtain ⟨s, c, h1, h2, h3⟩ := hall i (by simpa using hi)
        refine ⟨s, c, by simpa using h1, by simpa using h2, ?_⟩
        rw [show k + (i + 1) = k + 1 + i by omega]
        exact h3

/-- C5: for every memory-class `Allocate` request whose containers carry fewer than `2^33`
device IDs each (so that `n * 1073741824` fits a Go `int`), `Allocate` answers every container
sub-request; for the sub-request at position `i` with `n` device IDs, the limit text written is
`vmem:` followed by the decimal rendering of `n * 1073741824`, and `NVIDIA_VISIBLE_DEVICES` is
the comma-separated join of `getRealDeviceIDs` of those IDs. -/
theorem Allocate_limits_and_visible_devices (pathJoin : List String → String)
    (randString : Nat → String) (ContainerRequests : List (List String))
    (hsz : ∀ creq ∈ ContainerRequests, creq.length < 8589934592) :
    ∃ tr, Allocate pathJoin randString ContainerRequests = .ok tr ∧
      tr.steps.length = ContainerRequests.length ∧
      ∀ i, i < ContainerRequests.length → ∃ step creq devIDs,
        tr.steps[i]? = some step ∧ ContainerRequests[i]? = some creq ∧
        getRealDeviceIDs creq = .ok devIDs ∧
        step.limits = "vmem:" ++ toString (creq.length * 1073741824) ∧
        step.cresp.Envs.lookup "NVIDIA_VISIBLE_DEVICES" =
          some (String.intercalate "," devIDs) := by
  obtain ⟨steps', ids', cnt', hrun, hlen, hall⟩ :=
    allocateLoop_spec pathJoin randString ContainerRequests 0 [] [] 0
  rw [List.nil_append] at hrun
  refine ⟨{ steps := steps', patchPodIDs := String.intercalate "," ids', patchPodCnt := cnt' },
    ?_, hlen, fun i hi => ?_⟩
  · unfold Allocate
    rw [hrun]
  · obtain ⟨step, creq, h1, h2, h3⟩ := hall i hi
    obtain ⟨step', hstep', hlim, henv⟩ := allocateStep_spec pathJoin (randString (0 + i)) creq
    rw [h3] at hstep'
    cases hstep'
    have hmem : creq ∈ ContainerRequests := List.mem_iff_getElem?.mpr ⟨i, h2⟩
    have hn := hsz creq hmem
    have hw : wrapInt64 ((creq.length : Int) * gpuMemoryChunkSize) =
        ((creq.length * 1073741824 : Nat) : Int) := by
      unfold gpuMemoryChunkSize
      rw [wrapInt64_id] <;> push_cast <;> omega
    refine ⟨step, creq, _, h1, h2, getRealDeviceIDs_eq creq, ?_, henv⟩
    rw [hlim, hw]
    rfl

/-- The end-to-end scenario: two slices of `GPU-1` requested for one container. -/
theorem Allocate_limits_and_visible_devices_witness :
    ∃ tr step, Allocate (String.intercalate "/") (fun _ => "x7k2q")
        [["GPU-1_0", "GPU-1_1"]] = .ok tr ∧
      tr.steps[0]? = some step ∧ step.limits = "vmem:2147483648" ∧
      step.cresp.Envs.lookup "NVIDIA_VISIBLE_DEVICES" = some "GPU-1" := by
  obtain ⟨tr, hrun, _, hall⟩ := Allocate_limits_and_visible_devices (String.intercalate "/")
    (fun _ => "x7k2q") [["GPU-1_0", "GPU-1_1"]] (by decide)
  obtain ⟨step, creq, devIDs, h1, h2, h3, h4, h5⟩ := hall 0 (by decide)
  have hc : creq = ["GPU-1_0", "GPU-1_1"] := by
    simp only [List.getElem?_cons_zero, Option.some.injEq] at h2
    exact h2.symm
  subst hc
  have hd : devIDs = ["GPU-1"] := by
    have h0 : getRealDeviceIDs ["GPU-1_0", "GPU-1_1"] = .ok ["GPU-1"] := rfl
    rw [h0] at h3
    exact (Except.ok.inj h3).symm
  subst hd
  exact ⟨tr, step, hrun, h1, h4, h5⟩

/-! ## Theorems: slice enumeration and round trip -/

theorem chunkSzInMiB_eq : gpuMemoryChunkSize / 1024 / 1024 = 1024 := by decide

/-- C6: for a device with UUID `u` whose reported memory is `m` MiB (with `m + 512` inside the
range of a Go `int`), `getPluginApiMemoryDevice` returns exactly
`floor((m + c/2) / c)` devices for the chunk size `c = 1024` MiB, and their IDs are, in
order, `u_0, u_1, ..., u_(n-1)`. -/
theorem getPluginApiMemoryDevice_ids (d : Device) (m : Nat) (hm : d.Memory = some m)
    (hb : m + 512 < 9223372036854775808) :
    ∃ devs, getPluginApiMemoryDevice d = .ok devs ∧
      devs.length = (m + 1024 / 2) / 1024 ∧
      devs.map PluginDevice.ID =
        (List.range ((m + 1024 / 2) / 1024)).map (fun i => d.UUID ++ "_" ++ toString i) := by
  have h1 : wrapInt64 (m : Int) = (m : Int) := by
    rw [wrapInt64_id] <;> omega
  have h2 : wrapInt64 ((m : Int) + 1024 / 2) = (m : Int) + 512 := by
    rw [wrapInt64_id] <;> omega
  have h3 : Int.tdiv ((m : Int) + 512) 1024 = (((m + 1024 / 2) / 1024 : Nat) : Int) := by
    rw [Int.tdiv_eq_ediv] <;> omega
  have h4 : wrapUint64 (((m + 1024 / 2) / 1024 : Nat) : Int) = (m + 1024 / 2) / 1024 :=
    wrapUint64_natCast _ (by omega)
  unfold getPluginApiMemoryDevice
  rw [hm]
  simp only [chunkSzInMiB_eq, h1, h2, h3, h4]
  refine ⟨_, rfl, by simp, ?_⟩
  rw [List.map_map]
  rfl

/-- The theorem above on device `GPU-1` with three chunks of memory. -/
theorem getPluginApiMemoryDevice_ids_witness :
    ∃ devs, getPluginApiMemoryDevice ⟨"GPU-1", some (3 * 1024), none⟩ = .ok devs ∧
      devs.length = (3 * 1024 + 1024 / 2) / 1024 ∧
      devs.map PluginDevice.ID =
        (List.range ((3 * 1024 + 1024 / 2) / 1024)).map (fun i => "GPU-1" ++ "_" ++ toString i) :=
  getPluginApiMemoryDevice_ids ⟨"GPU-1", some (3 * 1024), none⟩ (3 * 1024) rfl (by decide)

/-- The end-to-end scenario: one device `GPU-1` with three chunks of memory. -/
theorem getPluginApiMemoryDevice_example :
    (getPluginApiMemoryDevice ⟨"GPU-1", some (3 * 1024), none⟩).map
        (fun devs => devs.map PluginDevice.ID) = .ok ["GPU-1_0", "GPU-1_1", "GPU-1_2"] := by
  rfl

theorem physicalOf_encode (u t : String) (h : '_' ∉ u.data) :
    physicalOf (u ++ "_" ++ t) = .ok u := by
  rw [physicalOf_eq]
  congr 1
  unfold ownerOf
  have hd : (u ++ "_" ++ t).data = u.data ++ '_' :: t.data := by
    simp [String.data_append]
  rw [hd, takeWhile_append_sep '_' u.data t.data h]

/-- C7, as amended: for every physical device whose UUID contains no `_`, decoding any
identifier that the compute-class or the memory-class enumeration produces returns the UUID. -/
theorem physicalOf_enumerated (d : Device) (h : '_' ∉ d.UUID.data) :
    (∀ dev ∈ getPluginApiComputeDevice d, physicalOf dev.ID = .ok d.UUID) ∧
      (∀ devs, getPluginApiMemoryDevice d = .ok devs →
        ∀ dev ∈ devs, physicalOf dev.ID = .ok d.UUID) := by
  constructor
  · intro dev hdev
    unfold getPluginApiComputeDevice at hdev
    obtain ⟨i, _, rfl⟩ := List.mem_map.mp hdev
    exact physicalOf_encode d.UUID (toString i) h
  · intro devs hdevs dev hdev
    unfold getPluginApiMemoryDevice at hdevs
    cases hmem : d.Memory with
    | none =>
      rw [hmem] at hdevs
      cases hdevs
    | some m =>
      rw [hmem] at hdevs
      simp only [] at hdevs
      have := Except.ok.inj hdevs
      subst this
      obtain ⟨i, _, rfl⟩ := List.mem_map.mp hdev
      exact physicalOf_encode d.UUID (toString i) h

/-- The theorem above on device `GPU-1`. -/
theorem physicalOf_enumerated_witness :
    (∀ dev ∈ getPluginApiComputeDevice ⟨"GPU-1", some 3072, none⟩,
        physicalOf dev.ID = .ok "GPU-1") ∧
      (∀ devs, getPluginApiMemoryDevice ⟨"GPU-1", some 3072, none⟩ = .ok devs →
        ∀ dev ∈ devs, physicalOf dev.ID = .ok "GPU-1") :=
  physicalOf_enumerated ⟨"GPU-1", some 3072, none⟩ (by decide)

/-- C7 as stated fails for a UUID that contains `_`: for the UUID `GPU_1` both enumerations
produce the identifier `GPU_1_0`, and decoding it returns `GPU`. -/
theorem physicalOf_roundtrip_fails :
    getPluginApiMemoryDevice ⟨"GPU_1", some 1024, none⟩ = .ok [⟨"GPU_1_0", Healthy, none⟩] ∧
      (getPluginApiComputeDevice ⟨"GPU_1", some 1024, none⟩).head? =
        some ⟨"GPU_1_0", Healthy, none⟩ ∧
      physicalOf "GPU_1_0" = .ok "GPU" :=
  ⟨rfl, rfl, rfl⟩

/-! ## Theorems: workspace recycler -/

theorem containerScan_eq (containerID : String) : ∀ (ids : List String),
    (∀ id ∈ ids, 10 ≤ id.utf8ByteSize) →
    containerScan containerID ids = .ok (decide (containerID ∈ ids))
  | [], _ => by simp [containerScan]
  | id :: rest, hid => by
    have ih := containerScan_eq containerID rest (fun x hx => hid x (List.mem_cons_of_mem _ hx))
    have h10 : ¬ id.utf8ByteSize < 10 := by
      have := hid id (List.mem_cons_self _ _)
      omega
    by_cases h : id = containerID
    · subst h
      simp [containerScan]
    · have h' : ¬ containerID = id := fun e => h e.symm
      rw [containerScan, if_neg h, if_neg h10, ih]
      simp [h']

theorem reportedAbsentAt_succ (containers : Nat → Option (List String)) (de : DirEntry)
    (rest : List DirEntry) (k j : Nat) (name : String) :
    ReportedAbsentAt containers (de :: rest) k (j + 1) name ↔
      ReportedAbsentAt containers rest (k + 1) j name := by
  unfold ReportedAbsentAt
  rw [show k + (j + 1) = k + 1 + j by omega]
  simp only [List.getElem?_cons_succ]

/-- A skipped entry: the loop goes on with the same `removed`, and entry 0 is not reported
absent. -/
theorem recycleLoop_extend (containers : Nat → Option (List String)) (de : DirEntry)
    (rest : List DirEntry) (k : Nat) (acc : List String) (out : List String × Option Fault)
    (hskip : ∀ name, ¬ ReportedAbsentAt containers (de :: rest) k 0 name)
    (ih : ∃ n, n ≤ rest.length ∧
      (∀ name, name ∈ out.1 ↔
        name ∈ acc ∨ ∃ i, i < n ∧ ReportedAbsentAt containers rest (k + 1) i name) ∧
      (out.2 = none → n = rest.length) ∧
      (∀ e, out.2 = some e → ∃ d data, rest[n]? = some d ∧ d.IsDir = true ∧
        d.containerID = .content data ∧
        containerExists (containers (k + 1 + n)) data = .error e)) :
    ∃ n, n ≤ (de :: rest).length ∧
      (∀ name, name ∈ out.1 ↔
        name ∈ acc ∨ ∃ i, i < n ∧ ReportedAbsentAt containers (de :: rest) k i name) ∧
      (out.2 = none → n = (de :: rest).length) ∧
      (∀ e, out.2 = some e → ∃ d data, (de :: rest)[n]? = some d ∧ d.IsDir = true ∧
        d.containerID = .content data ∧
        containerExists (containers (k + n)) data = .error e) := by
  obtain ⟨n, hn, hiff, hnone, herr⟩ := ih
  refine ⟨n + 1, by simp only [List.length_cons]; omega, fun name => ?_, fun h => ?_,
    fun e he => ?_⟩
  · rw [hiff name]
    constructor
    · rintro (h | ⟨i, hi, h⟩)
      · exact Or.inl h
      · exact Or.inr ⟨i + 1, by omega, (reportedAbsentAt_succ _ _ _ _ _ _).mpr h⟩
    · rintro (h | ⟨i, hi, h⟩)
      · exact Or.inl h
      · cases i with
        | zero => exact absurd h (hskip name)
        | succ j => exact Or.inr ⟨j, by omega, (reportedAbsentAt_succ _ _ _ _ _ _).mp h⟩
  · simp only [List.length_cons, hnone h]
  · obtain ⟨d, data, h1, h2, h3, h4⟩ := herr e he
    refine ⟨d, data, by simpa using h1, h2, h3, ?_⟩
    rw [show k + (n + 1) = k + 1 + n by omega]
    exact h4

/-- The loop of the recycler, from entry `k` on with `acc` already removed: it handles the
first `n` entries, removes exactly those among them that are reported absent, and stops
before the end only at an entry whose `containerExists` call panics. -/
theorem recycleLoop_spec (containers : Nat → Option (List String)) :
    ∀ (des : List DirEntry) (k : Nat) (acc : List String),
      ∃ n, n ≤ des.length ∧
        (∀ name, name ∈ (recycleLoop containers k des acc).1 ↔
          name ∈ acc ∨ ∃ i, i < n ∧ ReportedAbsentAt containers des k i name) ∧
        ((recycleLoop containers k des acc).2 = none → n = des.length) ∧
        (∀ e, (recycleLoop containers k des acc).2 = some e →
          ∃ d data, des[n]? = some d ∧ d.IsDir = true ∧ d.containerID = .content data ∧
            containerExists (containers (k + n)) data = .error e)
  | [], k, acc => ⟨0, le_refl _, fun name => by simp [recycleLoop], fun _ => rfl,
      fun e he => by simp [recycleLoop] at he⟩
  | de :: rest, k, acc => by
    cases hdir : de.IsDir with
    | false =>
      have hrun : recycleLoop containers k (de :: rest) acc =
          recycleLoop containers (k + 1) rest acc := by
        rw [recycleLoop, hdir]; rfl
      rw [hrun]
      refine recycleLoop_extend containers de rest k acc _ ?_
        (recycleLoop_spec containers rest (k + 1) acc)
      rintro name ⟨d, data, h1, _, h3, _⟩
      simp only [List.getElem?_cons_zero, Option.some.injEq] at h1
      subst h1
      rw [hdir] at h3
      cases h3
    | true =>
      cases hc : de.containerID with
      | notExist =>
        have hrun : recycleLoop containers k (de :: rest) acc =
            recycleLoop containers (k + 1) rest acc := by
          rw [recycleLoop, hdir, hc]; rfl
        rw [hrun]
        refine recycleLoop_extend containers de rest k acc _ ?_
          (recycleLoop_spec containers rest (k + 1) acc)
        rintro name ⟨d, data, h1, _, _, h4, _⟩
        simp only [List.getElem?_cons_zero, Option.some.injEq] at h1
        subst h1
        rw [hc] at h4
        cases h4
      | unreadable =>
        have hrun : recycleLoop containers k (de :: rest) acc =
            recycleLoop containers (k + 1) rest acc := by
          rw [recycleLoop, hdir, hc]; rfl
        rw [hrun]
        refine recycleLoop_extend containers de rest k acc _ ?_
          (recycleLoop_spec containers rest (k + 1) acc)
        rintro name ⟨d, data, h1, _, _, h4, _⟩
        simp only [List.getElem?_cons_zero, Option.some.injEq] at h1
        subst h1
        rw [hc] at h4
        cases h4
      | content data =>
        cases hex : containerExists (containers k) data with
        | error e =>
          have hrun : recycleLoop containers k (de :: rest) acc = (acc, some e) := by
            rw [recycleLoop, hdir, hc]
            simp only [Bool.not_true, Bool.false_eq_true, if_false, hex]
          rw [hrun]
          refine ⟨0, Nat.zero_le _, fun name => (by simp), fun h => (by simp at h),
            fun e' he' => ?_⟩
          simp only [Option.some.injEq] at he'
          subst he'
          exact ⟨de, data, List.getElem?_cons_zero, hdir, hc, by simpa using hex⟩
        | ok b =>
          cases b with
          | true =>
            have hrun : recycleLoop containers k (de :: rest) acc =
                recycleLoop containers (k + 1) rest acc := by
              rw [recycleLoop, hdir, hc]
              simp only [Bool.not_true, Bool.false_eq_true, if_false, hex]
            rw [hrun]
            refine recycleLoop_extend containers de rest k acc _ ?_
              (recycleLoop_spec containers rest (k + 1) acc)
            rintro name ⟨d, data', h1, _, _, h4, h5⟩
            simp only [List.getElem?_cons_zero, Option.some.injEq] at h1
            subst h1
            rw [hc] at h4
            cases h4
            rw [Nat.add_zero, hex] at h5
            cases h5
          | false =>
            have hrun : recycleLoop containers k (de :: rest) acc =
                recycleLoop containers (k + 1) rest (acc ++ [de.Name]) := by
              rw [recycleLoop, hdir, hc]
              simp only [Bool.not_true, Bool.false_eq_true, if_false, hex]
            rw [hrun]
            obtain ⟨n, hn, hiff, hnone, herr⟩ :=
              recycleLoop_spec containers rest (k + 1) (acc ++ [de.Name])
            refine ⟨n + 1, by simp only [List.length_cons]; omega, fun name => ?_, fun h => ?_,
              fun e he => ?_⟩
            · rw [hiff name]
              constructor
              · rintro (h | ⟨i, hi, h⟩)
                · rcases List.mem_append.mp h with h | h
                  · exact Or.inl h
                  · have hname : name = de.Name := by simpa using h
                    exact Or.inr ⟨0, by omega, de, data, List.getElem?_cons_zero, hname.symm,
                      hdir, hc, by simpa using hex⟩
                · exact Or.inr ⟨i + 1, by omega, (reportedAbsentAt_succ _ _ _ _ _ _).mpr h⟩
              · rintro (h | ⟨i, hi, h⟩)
                · exact Or.inl (List.mem_append_left _ h)
                · cases i with
                  | zero =>
                    obtain ⟨d, _, h1, h2, _⟩ := h
                    simp only [List.getElem?_cons_zero, Option.some.injEq] at h1
                    subst h1
                    exact Or.inl (List.mem_append_right _ (by simp [h2]))
                  | succ j =>
                    exact Or.inr ⟨j, by omega, (reportedAbsentAt_succ _ _ _ _ _ _).mp h⟩
            · simp only [List.length_cons, hnone h]
            · obtain ⟨d, data', h1, h2, h3, h4⟩ := herr e he
              refine ⟨d, data', by simpa using h1, h2, h3, ?_⟩
              rw [show k + (n + 1) = k + 1 + n by omega]
              exact h4

/-- C8: one pass of the recycler, on any workspace root and any container registry (asked
afresh for every workspace, possibly failing), hands to `os.RemoveAll` exactly the entries it
handles that are directories holding a readable `containerID` file whose recorded id the
registry reports absent.  It handles the whole listing unless a `containerExists` call panics,
in which case it stops at that entry.  Every other entry is left in place: an entry
disappears only if an entry of its name is such a directory, so (names in a directory being
distinct) a workspace with no `containerID` file is never deleted. -/
theorem alnairWorkspaceRecycle_removes_reported_absent (dentries : Option (List DirEntry))
    (containers : Nat → Option (List String)) :
    ∃ n, n ≤ (dentries.getD []).length ∧
      (∀ name, name ∈ (alnairWorkspaceRecycle dentries containers).1 ↔
        ∃ i, i < n ∧ ReportedAbsentAt containers (dentries.getD []) 0 i name) ∧
      ((alnairWorkspaceRecycle dentries containers).2 = none →
        n = (dentries.getD []).length) ∧
      (∀ e, (alnairWorkspaceRecycle dentries containers).2 = some e →
        ∃ d data, (dentries.getD [])[n]? = some d ∧ d.IsDir = true ∧
          d.containerID = .content data ∧ containerExists (containers n) data = .error e) ∧
      (∀ de ∈ dentries.getD [],
        de ∉ afterRemoval (dentries.getD []) (alnairWorkspaceRecycle dentries containers).1 →
        ∃ i, i < n ∧ ReportedAbsentAt containers (dentries.getD []) 0 i de.Name) ∧
      (((dentries.getD []).map DirEntry.Name).Nodup → ∀ de ∈ dentries.getD [],
        de.containerID = .notExist →
        de ∈ afterRemoval (dentries.getD []) (alnairWorkspaceRecycle dentries containers).1) := by
  have key : ∃ n, n ≤ (dentries.getD []).length ∧
      (∀ name, name ∈ (alnairWorkspaceRecycle dentries containers).1 ↔
        ∃ i, i < n ∧ ReportedAbsentAt containers (dentries.getD []) 0 i name) ∧
      ((alnairWorkspaceRecycle dentries containers).2 = none →
        n = (dentries.getD []).length) ∧
      (∀ e, (alnairWorkspaceRecycle dentries containers).2 = some e →
        ∃ d data, (dentries.getD [])[n]? = some d ∧ d.IsDir = true ∧
          d.containerID = .content data ∧
          containerExists (containers n) data = .error e) := by
    cases dentries with
    | none =>
      exact ⟨0, le_refl _, fun name => by simp [alnairWorkspaceRecycle], fun _ => rfl,
        fun e he => by simp [alnairWorkspaceRecycle] at he⟩
    | some des =>
      obtain ⟨n, hn, hiff, hnone, herr⟩ := recycleLoop_spec containers des 0 []
      refine ⟨n, hn, fun name => ?_, hnone, fun e he => ?_⟩
      · have := hiff name
        simpa [alnairWorkspaceRecycle] using this
      · have := herr e he
        simpa [alnairWorkspaceRecycle] using this
  obtain ⟨n, hn, hiff, hnone, herr⟩ := key
  have hgone : ∀ de ∈ dentries.getD [],
      de ∉ afterRemoval (dentries.getD []) (alnairWorkspaceRecycle dentries containers).1 →
      ∃ i, i < n ∧ ReportedAbsentAt containers (dentries.getD []) 0 i de.Name := by
    intro de hde hnot
    apply (hiff de.Name).mp
    by_contra hmem
    apply hnot
    unfold afterRemoval
    simp only [List.mem_filter, decide_eq_true_eq]
    exact ⟨hde, hmem⟩
  refine ⟨n, hn, hiff, hnone, herr, hgone, fun hnd de hde hc => ?_⟩
  by_contra hnot
  obtain ⟨i, _, d, data, h1, h2, _, h4, _⟩ := hgone de hde hnot
  have hd : d ∈ dentries.getD [] := List.mem_iff_getElem?.mpr ⟨i, h1⟩
  have := List.inj_on_of_nodup_map hnd hd hde h2
  subst this
  rw [hc] at h4
  cases h4

/-- The theorem above on four entries (an unbound workspace, a workspace of a listed container,
a workspace of a container that is gone, a plain file): the third is removed, the first is
not. -/
theorem alnairWorkspaceRecycle_removes_reported_absent_witness :
    "ccccc" ∈ (alnairWorkspaceRecycle
        (some [⟨"aaaaa", true, .notExist⟩, ⟨"bbbbb", true, .content "0123456789ab"⟩,
          ⟨"ccccc", true, .content "fedcba9876543210"⟩, ⟨"notes", false, .notExist⟩])
        (fun _ => some ["0123456789ab"])).1 ∧
      (⟨"aaaaa", true, .notExist⟩ : DirEntry) ∈ afterRemoval
        [⟨"aaaaa", true, .notExist⟩, ⟨"bbbbb", true, .content "0123456789ab"⟩,
          ⟨"ccccc", true, .content "fedcba9876543210"⟩, ⟨"notes", false, .notExist⟩]
        (alnairWorkspaceRecycle
          (some [⟨"aaaaa", true, .notExist⟩, ⟨"bbbbb", true, .content "0123456789ab"⟩,
            ⟨"ccccc", true, .content "fedcba9876543210"⟩, ⟨"notes", false, .notExist⟩])
          (fun _ => some ["0123456789ab"])).1 := by
  obtain ⟨n, _, hiff, hnone, _, _, hkeep⟩ := alnairWorkspaceRecycle_removes_reported_absent
    (some [⟨"aaaaa", true, .notExist⟩, ⟨"bbbbb", true, .content "0123456789ab"⟩,
      ⟨"ccccc", true, .content "fedcba9876543210"⟩, ⟨"notes", false, .notExist⟩])
    (fun _ => some ["0123456789ab"])
  have hn : n = 4 := hnone rfl
  subst hn
  refine ⟨(hiff "ccccc").mpr ⟨2, by omega, ⟨"ccccc", true, .content "fedcba9876543210"⟩,
    "fedcba9876543210", rfl, rfl, rfl, rfl, rfl⟩, ?_⟩
  exact hkeep (by decide) _ (List.mem_cons_self _ _) rfl

/-- When the registry answers every call (the listing succeeds and every listed ID has at
least ten bytes), the pass handles the whole listing without a panic. -/
theorem alnairWorkspaceRecycle_completes (dentries : Option (List DirEntry))
    (containers : Nat → Option (List String))
    (hreg : ∀ k, ∃ ids, containers k = some ids ∧ ∀ id ∈ ids, 10 ≤ id.utf8ByteSize) :
    (alnairWorkspaceRecycle dentries containers).2 = none := by
  cases dentries with
  | none => rfl
  | some des =>
    obtain ⟨n, _, _, _, herr⟩ := recycleLoop_spec containers des 0 []
    cases hout : (alnairWorkspaceRecycle (some des) containers).2 with
    | none => rfl
    | some e =>
      exfalso
      obtain ⟨d, data, _, _, _, h⟩ := herr e hout
      obtain ⟨ids, hids, hsz⟩ := hreg (0 + n)
      rw [hids, containerExists, containerScan_eq data ids hsz] at h
      cases h

/-- A failed Docker listing: `containerExists` panics at the first bound workspace and nothing
is removed. -/
theorem alnairWorkspaceRecycle_listing_fails :
    alnairWorkspaceRecycle
        (some [⟨"aaaaa", true, .notExist⟩, ⟨"ccccc", true, .content "fedcba9876543210"⟩])
        (fun _ => none) = ([], some .explicitPanic) := by
  rfl

/-- A listed container ID shorter than ten bytes: `container.ID[:10]` panics and nothing is
removed. -/
theorem alnairWorkspaceRecycle_short_id :
    alnairWorkspaceRecycle
        (some [⟨"aaaaa", true, .notExist⟩, ⟨"ccccc", true, .content "fedcba9876543210"⟩])
        (fun _ => some ["0123"]) = ([], some .sliceBoundsOutOfRange) := by
  rfl

/-- A registry that changes during the pass: the first workspace is asked about while its
container is still listed, the second after its container has gone. -/
theorem alnairWorkspaceRecycle_changing_registry :
    alnairWorkspaceRecycle
        (some [⟨"bbbbb", true, .content "0123456789ab"⟩,
          ⟨"ccccc", true, .content "fedcba9876543210"⟩])
        (fun k => if k = 0 then some ["0123456789ab", "fedcba9876543210"]
          else some ["0123456789ab"]) = (["ccccc"], none) := by
  rfl

end Alnair
